import Mathlib

/-!
Verification development for the response-parsing and ranking engine of a
classification client (`semaphore_classification_client.py` and
`semaphore_helper.py`).

The embedding models:
* `parse_classification_results` — regex-based field extraction over the raw
  textual payload (`<URL>`, `<META ...>`, `<SYSTEM ...>` patterns), with the
  structured-payload passthrough branch;
* the ranking logic of `semaphore_helper.main` (dedup by max score over a
  Python dict, stable descending sort, truncation to `max_topics`);
* the per-item batch loop building `ItemOutcome`s, and the CSV emitter.

Scores are modelled as `ℚ`: the program only parses decimal score strings and
compares them (no arithmetic), and comparison of finite IEEE doubles agrees
with comparison of the rational values they denote.
-/

namespace Semaphore

/-! ### Character-level matching, modelling the regex patterns

The source uses `re.findall` with the patterns
`<META name="([^"]+)" value="([^"]+)"(?: id="([^"]+)" score="([^"]+)")?` and
`<SYSTEM name="([^"]+)" value="([^"]+)"`, and `re.search('<URL>(.*?)</URL>')`.
Each `[^"]+` group followed by `"` deterministically captures the maximal
nonempty run of non-quote characters up to the next quote, so the regex scan
is modelled by direct recursive matchers. -/

/-- Match a literal character sequence at the head of the input, returning the
remainder on success. -/
def matchLit : List Char → List Char → Option (List Char)
  | [], s => some s
  | _ :: _, [] => none
  | c :: cs, d :: s => if d = c then matchLit cs s else none

/-- Model of a `([^"]+)"` fragment: capture the maximal nonempty run of
non-quote characters, then consume the closing quote. -/
def captureQuoted (s : List Char) : Option (String × List Char) :=
  let run := s.takeWhile (fun c => c ≠ '\"')
  match s.drop run.length with
  | '\"' :: rest => if run.isEmpty then none else some (String.mk run, rest)
  | _ => none

def metaLit : List Char := "<META name=\"".toList
def valueLit : List Char := " value=\"".toList
def idLit : List Char := " id=\"".toList
def scoreLit : List Char := " score=\"".toList
def systemLit : List Char := "<SYSTEM name=\"".toList
def urlOpenLit : List Char := "<URL>".toList
def urlCloseLit : List Char := "</URL>".toList

/-- One extracted `META` field: `(name, value, optional (id, score))`, the
regex groups of the `<META ...>` pattern; the optional group is `none` when
` id="..." score="..."` does not follow the value attribute. -/
abbrev MetaField := String × String × Option (String × String)

/-- Model of the optional regex group `(?: id="([^"]+)" score="([^"]+)")?`:
both attributes must appear together, in this order, immediately after the
value attribute. -/
def matchOptIdScore (s : List Char) : Option ((String × String) × List Char) :=
  match matchLit idLit s with
  | none => none
  | some s1 =>
    match captureQuoted s1 with
    | none => none
    | some (i, s2) =>
      match matchLit scoreLit s2 with
      | none => none
      | some s3 =>
        match captureQuoted s3 with
        | none => none
        | some (sc, s4) => some ((i, sc), s4)

/-- Try to match the `<META ...>` pattern at the head of the input. -/
def matchMetaAt (s : List Char) : Option (MetaField × List Char) :=
  match matchLit metaLit s with
  | none => none
  | some s1 =>
    match captureQuoted s1 with
    | none => none
    | some (name, s2) =>
      match matchLit valueLit s2 with
      | none => none
      | some s3 =>
        match captureQuoted s3 with
        | none => none
        | some (value, s4) =>
          match matchOptIdScore s4 with
          | none => some ((name, value, none), s4)
          | some (isc, s5) => some ((name, value, some isc), s5)

/-- Try to match the `<SYSTEM ...>` pattern at the head of the input. -/
def matchSystemAt (s : List Char) : Option ((String × String) × List Char) :=
  match matchLit systemLit s with
  | none => none
  | some s1 =>
    match captureQuoted s1 with
    | none => none
    | some (name, s2) =>
      match matchLit valueLit s2 with
      | none => none
      | some s3 =>
        match captureQuoted s3 with
        | none => none
        | some (value, s4) => some ((name, value), s4)

/-- Fueled non-overlapping scan, modelling `re.findall`: at each position try
the matcher; on success emit the groups and continue after the match,
otherwise advance one character.  Every successful match consumes at least one
character, so fuel equal to the input length is always sufficient. -/
def scanAux (f : List Char → Option (α × List Char)) : ℕ → List Char → List α
  | 0, _ => []
  | _ + 1, [] => []
  | n + 1, c :: cs =>
    match f (c :: cs) with
    | some (a, after) => a :: scanAux f n after
    | none => scanAux f n cs

/-- `re.findall` of a pattern matcher over the whole input. -/
def scan (f : List Char → Option (α × List Char)) (s : List Char) : List α :=
  scanAux f s.length s

/-- All `<META ...>` fields of the payload, in order. -/
def scanMeta (s : List Char) : List MetaField := scan matchMetaAt s

/-- All `<SYSTEM ...>` fields of the payload, in order. -/
def scanSystem (s : List Char) : List (String × String) := scan matchSystemAt s

/-- Lazy group of `re.search('<URL>(.*?)</URL>')` at one position: the
shortest run of non-newline characters followed by `</URL>`. -/
def urlBodyAt (s : List Char) : Option (List Char) :=
  match matchLit urlCloseLit s with
  | some _ => some []
  | none =>
    match s with
    | [] => none
    | c :: cs =>
      if c = '\n' then none
      else (urlBodyAt cs).map (fun b => c :: b)
termination_by s.length
decreasing_by simp

/-- Model of `re.search('<URL>(.*?)</URL>', xml)`: leftmost match wins, with
the lazy group taking the shortest body. -/
def searchURL : List Char → Option String
  | [] => none
  | c :: cs =>
    match matchLit urlOpenLit (c :: cs) with
    | some rest =>
      match urlBodyAt rest with
      | some body => some (String.mk body)
      | none => searchURL cs
    | none => searchURL cs

/-! ### Python `float()` on score strings

Model of Python `float` applied to a captured score string, on the strings
denoting finite decimal values: optional surrounding ASCII whitespace, an
optional sign, digit groups with single underscores between digits, an
optional fractional part, and an optional decimal exponent — the CPython
grammar for finite decimals.  The spellings of infinities and NaN are
accepted by `float()` but denote non-finite doubles, which lie outside the
finite-score data model (a score, when present, is a finite number); they and
non-ASCII digit/space spellings are out of the model's domain, and no theorem
relies on their behaviour: the extraction-failure theorem is stated only for
score strings carrying an ASCII character that no accepted spelling can
contain. -/

def digitsToNat (cs : List Char) : ℕ :=
  cs.foldl (fun a c => 10 * a + (c.toNat - 48)) 0

/-- The exact rational `m * 10^e` for an integer exponent `e`. -/
def ratOfParts (m : ℤ) : ℤ → ℚ
  | Int.ofNat n => mkRat (m * Int.ofNat (10 ^ n)) 1
  | Int.negSucc k => mkRat m (10 ^ (k + 1))

/-- The ASCII whitespace stripped by `float()`. -/
def isPyWs (c : Char) : Bool :=
  c = ' ' || c = '\t' || c = '\n' || c = '\r' || c = '\x0B' || c = '\x0C'

/-- Strip leading and trailing whitespace. -/
def stripWs (cs : List Char) : List Char :=
  ((cs.dropWhile isPyWs).reverse.dropWhile isPyWs).reverse

/-- Consume an optional leading sign, returning whether it was `-`. -/
def parseSign : List Char → Bool × List Char
  | [] => (false, [])
  | c :: r =>
    if c = '+' then (false, r)
    else if c = '-' then (true, r)
    else (false, c :: r)

/-- Characters of a digit group: digits and grouping underscores. -/
def isRunChar (c : Char) : Bool := c.isDigit || c = '_'

/-- The maximal digit-group prefix. -/
def runOf (cs : List Char) : List Char := cs.takeWhile isRunChar

/-- The input after its digit-group prefix. -/
def restOf (cs : List Char) : List Char := cs.dropWhile isRunChar

def noDoubleUnd : List Char → Bool
  | c :: d :: rest => !(c = '_' && d = '_') && noDoubleUnd (d :: rest)
  | _ => true

/-- A valid digit group: nonempty, starts and ends with a digit, single
underscores only — PEP 515 grouping, `digit (["_"] digit)*`. -/
def validRun (run : List Char) : Bool :=
  !run.isEmpty && (run.headD '0').isDigit && (run.getLastD '0').isDigit &&
    noDoubleUnd run

/-- The numeric value of a digit group, ignoring grouping underscores. -/
def runValue (run : List Char) : ℕ := digitsToNat (run.filter Char.isDigit)

/-- The number of digits of a digit group. -/
def runDigits (run : List Char) : ℕ := (run.filter Char.isDigit).length

def signedInt (neg : Bool) (m : ℕ) : ℤ :=
  if neg then -(Int.ofNat m) else Int.ofNat m

/-- The optional exponent: either the end of the input, or `e`/`E`, an
optional sign and a digit group consuming the whole remainder. -/
def pyExp (neg : Bool) (mant : ℕ) (base : ℤ) : List Char → Option ℚ
  | [] => some (ratOfParts (signedInt neg mant) base)
  | e :: r =>
    if e = 'e' || e = 'E' then
      if validRun (runOf (parseSign r).2) && (restOf (parseSign r).2).isEmpty then
        some (ratOfParts (signedInt neg mant)
          (base + signedInt (parseSign r).1 (runValue (runOf (parseSign r).2))))
      else none
    else none

/-- The mantissa: an integer digit group, an optional `.` with an optional
fractional digit group, at least one digit overall; yields the digits value,
the base-10 exponent and the unconsumed remainder. -/
def pyMantissa (body : List Char) : Option (ℕ × ℤ × List Char) :=
  if !(runOf body).isEmpty && !validRun (runOf body) then none
  else
    match restOf body with
    | '.' :: r =>
      if !(runOf r).isEmpty && !validRun (runOf r) then none
      else if (runOf body).isEmpty && (runOf r).isEmpty then none
      else
        some (runValue (runOf body) * 10 ^ runDigits (runOf r) + runValue (runOf r),
          -(Int.ofNat (runDigits (runOf r))), restOf r)
    | _ =>
      if (runOf body).isEmpty then none
      else some (runValue (runOf body), 0, restOf body)

def pyFloatChars (cs : List Char) : Option ℚ :=
  match pyMantissa (parseSign (stripWs cs)).2 with
  | none => none
  | some (mant, base, rest) => pyExp (parseSign (stripWs cs)).1 mant base rest

/-- `float(s)` as used on a captured score attribute, on the finite-decimal
domain. -/
def pyFloat (s : String) : Option ℚ := pyFloatChars s.toList

/-- The characters the finite-decimal grammar can consume: whitespace,
digits, signs, underscore, dot and the exponent markers. -/
def pyCoreChar (c : Char) : Bool :=
  isPyWs c || c.isDigit || c = '+' || c = '-' || c = '_' || c = '.' ||
    c = 'e' || c = 'E'

/-- The ASCII characters that can occur in some string `float()` accepts: the
finite-decimal alphabet plus the letters of the `inf`/`infinity`/`nan`
spellings.  CPython maps non-ASCII digits and spaces to ASCII and then parses
exactly this alphabet, so a string carrying any other ASCII character always
raises `ValueError`. -/
def pyFloatLegalAscii (c : Char) : Bool :=
  pyCoreChar c || c = 'i' || c = 'I' || c = 'n' || c = 'N' ||
    c = 'f' || c = 'F' || c = 'a' || c = 'A' || c = 't' || c = 'T' ||
    c = 'y' || c = 'Y'

/-- A certificate that `float(s)` raises `ValueError`: `s` contains an ASCII
character outside the accepted alphabet. -/
def hasAsciiJunk (s : String) : Bool :=
  s.toList.any (fun c => decide (c.toNat < 128) && !pyFloatLegalAscii c)

/-! ### The parsed-result data model -/

/-- One entry of a `classifications[name]` list built by
`parse_classification_results`: the dict
`{'value': value, 'id': id_val if id_val else None,
  'score': float(score) if score else None}`. -/
structure Record where
  value : String
  id : Option String
  score : Option ℚ
deriving DecidableEq, Repr

/-- The dict returned by `parse_classification_results` on the textual branch:
`{'document_info': {'url': ...}, 'classifications': ..., 'system_info': ...,
'raw_xml': xml}`.  `classifications` is a Python dict, modelled as an
association list in key-insertion order. -/
structure ParsedResult where
  url : Option String
  classifications : List (String × List Record)
  system_info : List (String × String)
  raw_xml : String
deriving DecidableEq, Repr

/-- An already-structured (decoded) response dict, restricted to the two keys
the pipeline reads downstream: the value under `"classifications"` and the
value under `"system_info"`, each `none` when the dict lacks that key and
typed as the shape the helper consumes when present; `rest` stands for the
remaining content of the dict, preserved opaquely. -/
structure StructuredPayload (J : Type) where
  classifications : Option (List (String × List Record))
  system_info : Option (List (String × String))
  rest : J
deriving DecidableEq, Repr

/-- The argument of `parse_classification_results`: a dict that either has a
`'raw_response'` key (textual payload) or not (structured payload, returned
untouched). -/
inductive RawResult (J : Type) where
  | structured (d : StructuredPayload J)
  | textual (xml : String)
deriving DecidableEq, Repr

/-- The value returned by `parse_classification_results`: the structured input
dict passed through verbatim, or the extracted structure. -/
inductive ParseOutput (J : Type) where
  | passthrough (d : StructuredPayload J)
  | parsed (p : ParsedResult)
deriving DecidableEq, Repr

/-- First-match association-list lookup (a Python dict read). -/
def listLookup [DecidableEq κ] (k : κ) : List (κ × β) → Option β
  | [] => none
  | (k1, b) :: rest => if k1 = k then some b else listLookup k rest

/-- `classifications[name].append(rec)` with
`if name not in classifications: classifications[name] = []` — dict insertion
order: a new key is appended at the end, an existing key keeps its position. -/
def dictAppend : List (String × List Record) → String → Record → List (String × List Record)
  | [], k, r => [(k, [r])]
  | (k1, rs) :: rest, k, r =>
    if k1 = k then (k1, rs ++ [r]) :: rest
    else (k1, rs) :: dictAppend rest k r

/-- Dict write `d[k] = v`: overwrite in place, or append a new key. -/
def dictSet : List (String × String) → String → String → List (String × String)
  | [], k, v => [(k, v)]
  | (k1, v1) :: rest, k, v =>
    if k1 = k then (k1, v) :: rest
    else (k1, v1) :: dictSet rest k v

/-- The loop over `meta_fields` building `classifications`; `float(score)`
raising `ValueError` on an unparseable captured score is modelled by
`Except.error`. -/
def buildCls : List MetaField → List (String × List Record) →
    Except String (List (String × List Record))
  | [], acc => Except.ok acc
  | (name, value, opt) :: rest, acc =>
    match opt with
    | none => buildCls rest (dictAppend acc name ⟨value, none, none⟩)
    | some (i, sc) =>
      match pyFloat sc with
      | none => Except.error ("could not convert string to float: " ++ sc)
      | some q => buildCls rest (dictAppend acc name ⟨value, some i, some q⟩)

/-- The dict comprehension `{name: value for name, value in system_fields}`. -/
def buildSystemInfo (fields : List (String × String)) : List (String × String) :=
  fields.foldl (fun d nv => dictSet d nv.1 nv.2) []

/-- `SemaphoreClassificationClient.parse_classification_results`: return a
structured payload untouched, otherwise extract URL, `META` and `SYSTEM`
fields from the raw text.  A `ValueError` from `float(score)` propagates as
`Except.error`. -/
def parse_classification_results (r : RawResult J) : Except String (ParseOutput J) :=
  match r with
  | RawResult.structured d => Except.ok (ParseOutput.passthrough d)
  | RawResult.textual xml =>
    let cs := xml.toList
    let url := searchURL cs
    match buildCls (scanMeta cs) [] with
    | Except.error e => Except.error e
    | Except.ok cls =>
      Except.ok (ParseOutput.parsed ⟨url, cls, buildSystemInfo (scanSystem cs), xml⟩)

/-- `parsed.get("classifications", {}).get(cat, [])` as read by the helper:
on the passthrough branch this reads the structured dict's own
`"classifications"` entry, falling back to the dict defaults. -/
def getCategory (out : ParseOutput J) (cat : String) : List Record :=
  match out with
  | ParseOutput.passthrough d => (listLookup cat (d.classifications.getD [])).getD []
  | ParseOutput.parsed p => (listLookup cat p.classifications).getD []

/-- The `system_info` view of a parse output: on the passthrough branch, the
structured dict's own `"system_info"` entry (empty when absent). -/
def getSystemInfo (out : ParseOutput J) : List (String × String) :=
  match out with
  | ParseOutput.passthrough d => d.system_info.getD []
  | ParseOutput.parsed p => p.system_info

/-! ### The ranking logic of `semaphore_helper.main` (lines 160–177) -/

/-- One step of the dedup loop: `unique_classifications[value] = score` when
`value not in unique_classifications or score > unique_classifications[value]`.
A new key is appended, an existing key keeps its position. -/
def upd : List (String × ℚ) → String → ℚ → List (String × ℚ)
  | [], v, s => [(v, s)]
  | (k, sc) :: rest, v, s =>
    if k = v then (if sc < s then (k, s) :: rest else (k, sc) :: rest)
    else (k, sc) :: upd rest v s

/-- The loop body over one record: skip a null score, otherwise write the
dedup dict. -/
def ucStep (acc : List (String × ℚ)) (item : Record) : List (String × ℚ) :=
  match item.score with
  | none => acc
  | some s => upd acc item.value s

/-- The `unique_classifications` dict after the dedup loop: records with a
null score are skipped, the rest keep the maximum score per distinct value. -/
def uniqueClassifications (items : List Record) : List (String × ℚ) :=
  items.foldl ucStep []

/-- Stable insertion for descending order: the new element goes before the
first element whose score is not greater, so earlier-input elements win ties. -/
def insertDesc (p : String × ℚ) : List (String × ℚ) → List (String × ℚ)
  | [] => [p]
  | q :: rest => if q.2 ≤ p.2 then p :: q :: rest else q :: insertDesc p rest

/-- `sorted(items, key=lambda x: x[1], reverse=True)`: Python's sort is
stable, so the result is characterised as: sorted by score descending, with
equal scores kept in input order — which this insertion sort computes. -/
def sortDesc : List (String × ℚ) → List (String × ℚ)
  | [] => []
  | p :: rest => insertDesc p (sortDesc rest)

/-- `sorted_classifications[:max_topics]` of the helper: dedup by max score,
sort descending (stable), truncate. -/
def rankTopics (items : List Record) (maxTopics : ℕ) : List (String × ℚ) :=
  (sortDesc (uniqueClassifications items)).take maxTopics

/-- Values of the records carrying a non-null score, in extraction order. -/
def scoredValues (items : List Record) : List String :=
  items.filterMap (fun r =>
    match r.score with
    | some _ => some r.value
    | none => none)

/-- Scores attached to a given value, in extraction order. -/
def scoresOf (items : List Record) (v : String) : List ℚ :=
  items.filterMap (fun r => if r.value = v then r.score else none)

/-- The maximum of a list of scores, `none` when empty. -/
def maxOf : List ℚ → Option ℚ
  | [] => none
  | s :: rest => some (rest.foldl max s)

/-- Maximum of two optional scores. -/
def optMax : Option ℚ → Option ℚ → Option ℚ
  | none, p => p
  | some a, none => some a
  | some a, some b => some (max a b)

/-- First occurrences of the elements of `l` not in `seen`, in order. -/
def firstDedupAux [DecidableEq α] : List α → List α → List α
  | [], _ => []
  | a :: rest, seen =>
    if a ∈ seen then firstDedupAux rest seen
    else a :: firstDedupAux rest (a :: seen)

/-- The distinct elements of a list, each at its first occurrence. -/
def firstDedup [DecidableEq α] (l : List α) : List α := firstDedupAux l []

/-- The number of distinct values among the records with a non-null score. -/
def distinctScoredCount (items : List Record) : ℕ :=
  (firstDedup (scoredValues items)).length

/-- Descending sortedness by score. -/
def SortedDesc (l : List (String × ℚ)) : Prop :=
  l.Pairwise (fun a b => b.2 ≤ a.2)

/-- The end-to-end success path of the helper for one payload: parse, select
one category, rank with a limit; `none` when parsing raised. -/
def pipelineTopics (xml : String) (cat : String) (limit : ℕ) :
    Option (List (String × ℚ)) :=
  match parse_classification_results (J := Unit) (RawResult.textual xml) with
  | Except.error _ => none
  | Except.ok out => some (rankTopics (getCategory out cat) limit)

/-! ### The batch loop of `semaphore_helper.main` (lines 131–220)

The helper `classify_file` catches every exception of the fetch (falling back
from file upload to raw-text submission) and on double failure returns an
`{"error": ...}` dict, so per item it yields either an error dict or a
payload.  The loop body parses the payload; only `float(score)` can raise
there, and the surrounding `except` turns that into the item's error.  The
outcomes are modelled as collected in the `results` list (the `--json`/`--csv`
path). -/

/-- What `classify_file` returned for one item: an `{"error": ...}` dict, or
a classification result. -/
inductive FetchOutcome (J : Type) where
  | errorDict (msg : String)
  | payload (p : RawResult J)
deriving DecidableEq, Repr

/-- One unit of work of the batch loop: the file path, its name, and what the
external fetch produced for it. -/
structure WorkItem (J : Type) where
  file : String
  filename : String
  fetch : FetchOutcome J
deriving DecidableEq, Repr

/-- The `file_result` dict accumulated into `results`. -/
structure ItemOutcome where
  file : String
  filename : String
  classifications : List (String × ℚ)
  error : Option String
deriving DecidableEq, Repr

/-- The body of the batch loop for one item: error dicts and parse exceptions
become the item's `error` with empty classifications; otherwise the
`Generic_UPWARD` category is ranked with the `--max-topics` limit. -/
def processItem (maxTopics : ℕ) (item : WorkItem J) : ItemOutcome :=
  match item.fetch with
  | FetchOutcome.errorDict msg => ⟨item.file, item.filename, [], some msg⟩
  | FetchOutcome.payload p =>
    match parse_classification_results p with
    | Except.error e => ⟨item.file, item.filename, [], some e⟩
    | Except.ok out =>
      ⟨item.file, item.filename,
        rankTopics (getCategory out "Generic_UPWARD") maxTopics, none⟩

/-- The whole batch loop: one outcome per item, in submission order. -/
def processItems (maxTopics : ℕ) (items : List (WorkItem J)) : List ItemOutcome :=
  items.map (processItem maxTopics)

/-! ### The CSV emitter of `semaphore_helper.main` (lines 225–254) -/

/-- Python truthiness of `result["error"]` (`None` and `""` are falsy). -/
def pyTruthy : Option String → Bool
  | none => false
  | some s => !s.isEmpty

/-- One step of the first pass computing the widest topic row:
`if num_topics > max_topics: max_topics = num_topics`, skipping errored
results. -/
def csvStep (m : ℕ) (r : ItemOutcome) : ℕ :=
  if pyTruthy r.error then m
  else if m < r.classifications.length then r.classifications.length else m

/-- The first pass: `max_topics = max(len(result["classifications"]))` over
the results without a (truthy) error, starting from `0`. -/
def csvMaxTopics (results : List ItemOutcome) : ℕ :=
  results.foldl csvStep 0

/-- `header = ["assetId", "error"] + ["dc:subject"] * max_topics`. -/
def csvHeader (results : List ItemOutcome) : List String :=
  "assetId" :: "error" :: List.replicate (csvMaxTopics results) "dc:subject"

/-- One data row: filename, error text (or empty), then either the topic
names padded with empty cells up to `maxT`, or `maxT` empty cells for an
errored item. -/
def csvRow (maxT : ℕ) (r : ItemOutcome) : List String :=
  r.filename :: (r.error.getD "") ::
    (if pyTruthy r.error then List.replicate maxT ""
     else r.classifications.map Prod.fst ++
       List.replicate (maxT - r.classifications.length) "")

/-- All data rows, written against the precomputed width. -/
def csvDataRows (results : List ItemOutcome) : List (List String) :=
  results.map (csvRow (csvMaxTopics results))

/-! ### Concrete inputs used by the claims -/

/-- The round-trip payload: three `Generic_UPWARD` tags with scores
`62.5`, `80.0`, `71.3`. -/
def c1xml : String :=
  "<META name=\"Generic_UPWARD\" value=\"Audit\" id=\"i1\" score=\"62.5\"/><META name=\"Generic_UPWARD\" value=\"Tax\" id=\"i2\" score=\"80.0\"/><META name=\"Generic_UPWARD\" value=\"Audit\" id=\"i3\" score=\"71.3\"/>"

/-- A payload whose single `META` tag carries a score attribute that
`float()` cannot parse. -/
def c4xml : String :=
  "<META name=\"Generic_UPWARD\" value=\"Audit\" id=\"i1\" score=\"notanumber\"/>"

/-- Records sharing the value `"Audit"`, whose maximum score loses to
`"Tax"`, for the truncation counterexample. -/
def ex2 : List Record :=
  [⟨"Audit", none, some 62⟩, ⟨"Audit", none, some 80⟩, ⟨"Tax", none, some 90⟩]

/-- The extraction order of the tie-break scenario:
`[Finance(70), Finance(85), Law(85)]`. -/
def ex3 : List Record :=
  [⟨"Finance", none, some 70⟩, ⟨"Finance", none, some 85⟩, ⟨"Law", none, some 85⟩]

/-- A tie where first-seen order disagrees with alphabetical order. -/
def ex3b : List Record :=
  [⟨"Law", none, some 85⟩, ⟨"Finance", none, some 85⟩]

/-- A single scored record, for the limit-0 counterexample. -/
def ex5 : List Record := [⟨"Audit", some "id1", some 5⟩]

/-- A `META` tag with an empty value attribute. -/
def emptyValXml : String := "<META name=\"X\" value=\"\"/>"

/-- A `META` tag carrying a score attribute but no id attribute. -/
def scoreOnlyXml : String := "<META name=\"Generic_UPWARD\" value=\"Tax\" score=\"9.5\"/>"

/-- A `META` tag with id and score attributes in swapped order. -/
def swappedXml : String := "<META name=\"Generic_UPWARD\" value=\"Tax\" score=\"9.5\" id=\"i9\"/>"

/-- A `META` tag with id then score, as the pattern expects. -/
def idScoreXml : String := "<META name=\"Generic_UPWARD\" value=\"Tax\" id=\"i9\" score=\"9.5\"/>"

/-- A `META` tag with another attribute between value and id. -/
def sepAttrXml : String := "<META name=\"N\" value=\"V\" lang=\"en\" id=\"x\" score=\"1\"/>"

/-- A three-item batch whose second item's fetch failed. -/
def batch3 : List (WorkItem Unit) :=
  [⟨"d/f1", "f1", FetchOutcome.payload (RawResult.textual c1xml)⟩,
   ⟨"d/f2", "f2", FetchOutcome.errorDict "Failed to process d/f2: boom"⟩,
   ⟨"d/f3", "f3", FetchOutcome.payload (RawResult.textual "no tags here")⟩]

/-- A batch of outcomes with different topic counts and one errored item. -/
def csvEx : List ItemOutcome :=
  [⟨"d/f1", "f1", [("Tax", 80), ("Audit", 71)], none⟩,
   ⟨"d/f2", "f2", [], some "boom"⟩,
   ⟨"d/f3", "f3", [("Law", 50)], none⟩]

/-- A structured payload that itself carries `classifications` and
`system_info` keys. -/
def ex9 : StructuredPayload Unit :=
  ⟨some [("Generic_UPWARD", [⟨"Audit", some "idA", some 5⟩])],
   some [("lang", "en")], ()⟩

/-- A structured payload without `classifications` or `system_info` keys. -/
def ex9b : StructuredPayload Unit := ⟨none, none, ()⟩

end Semaphore

deriving instance DecidableEq for Except

namespace Semaphore

/-! ### Properties of the dedup dict -/

theorem keys_upd (acc : List (String × ℚ)) (v : String) (s : ℚ) :
    (upd acc v s).map Prod.fst =
      if v ∈ acc.map Prod.fst then acc.map Prod.fst else acc.map Prod.fst ++ [v] := by
  induction acc with
  | nil => simp [upd]
  | cons p rest ih =>
    obtain ⟨k, sc⟩ := p
    by_cases hk : k = v
    · subst hk
      by_cases hs : sc < s <;> simp [upd, hs]
    · simp only [upd, if_neg hk, List.map_cons, List.mem_cons]
      rw [ih]
      by_cases hv : v ∈ rest.map Prod.fst
      · simp [hv, hk, Ne.symm hk]
      · simp [hv, hk, Ne.symm hk]

theorem lookup_upd (acc : List (String × ℚ)) (v w : String) (s : ℚ) :
    listLookup v (upd acc w s) =
      if w = v then optMax (listLookup v acc) (some s) else listLookup v acc := by
  induction acc with
  | nil =>
    by_cases hw : w = v <;> simp [upd, listLookup, hw, optMax]
  | cons p rest ih =>
    obtain ⟨k, sc⟩ := p
    by_cases hk : k = w
    · subst hk
      by_cases hs : sc < s
      · by_cases hv : k = v
        · subst hv
          simp [upd, hs, listLookup, optMax, max_eq_right (le_of_lt hs)]
        · simp [upd, hs, listLookup, hv]
      · by_cases hv : k = v
        · subst hv
          simp [upd, hs, listLookup, optMax, max_eq_left (le_of_not_lt hs)]
        · simp [upd, hs, listLookup, hv]
    · by_cases hv : k = v
      · subst hv
        simp [upd, hk, listLookup, Ne.symm hk]
      · simp [upd, hk, listLookup, hv, ih]

theorem optMax_none_right (o : Option ℚ) : optMax o none = o := by
  cases o <;> rfl

theorem optMax_assoc (o p q : Option ℚ) :
    optMax (optMax o p) q = optMax o (optMax p q) := by
  cases o <;> cases p <;> cases q <;> simp [optMax, max_assoc]

theorem foldl_max_shift (l : List ℚ) : ∀ a b, l.foldl max (max a b) = max a (l.foldl max b) := by
  induction l with
  | nil => intro a b; rfl
  | cons x l ih =>
    intro a b
    simp only [List.foldl_cons]
    rw [max_assoc, ih]

theorem maxOf_cons (s : ℚ) (xs : List ℚ) : maxOf (s :: xs) = optMax (some s) (maxOf xs) := by
  cases xs with
  | nil => rfl
  | cons x xs =>
    simp only [maxOf, optMax, List.foldl_cons]
    rw [foldl_max_shift]

theorem le_foldl_max (l : List ℚ) : ∀ a, a ≤ l.foldl max a := by
  induction l with
  | nil => intro a; exact le_refl a
  | cons x l ih =>
    intro a
    exact le_trans (le_max_left a x) (ih (max a x))

theorem foldl_max_le_of_mem (l : List ℚ) : ∀ a x, x ∈ l → x ≤ l.foldl max a := by
  induction l with
  | nil => intro a x hx; cases hx
  | cons y l ih =>
    intro a x hx
    rcases List.mem_cons.mp hx with h | h
    · subst h
      exact le_trans (le_max_right a x) (le_foldl_max l (max a x))
    · exact ih (max a y) x h

theorem foldl_max_mem (l : List ℚ) : ∀ a, l.foldl max a ∈ a :: l := by
  induction l with
  | nil => intro a; simp
  | cons x l ih =>
    intro a
    simp only [List.foldl_cons]
    rcases List.mem_cons.mp (ih (max a x)) with h | h
    · rcases max_choice a x with hm | hm <;> rw [h, hm] <;> simp
    · simp [h]

theorem maxOf_spec (xs : List ℚ) (m : ℚ) (h : maxOf xs = some m) :
    m ∈ xs ∧ ∀ x ∈ xs, x ≤ m := by
  cases xs with
  | nil => cases h
  | cons s xs =>
    simp only [maxOf, Option.some.injEq] at h
    subst h
    refine ⟨foldl_max_mem xs s, ?_⟩
    intro x hx
    rcases List.mem_cons.mp hx with h | h
    · subst h; exact le_foldl_max xs x
    · exact foldl_max_le_of_mem xs s x h

theorem scoresOf_cons_pos {r : Record} {v : String} {s : ℚ} (hv : r.value = v)
    (hs : r.score = some s) (l : List Record) :
    scoresOf (r :: l) v = s :: scoresOf l v := by
  simp [scoresOf, List.filterMap_cons, hv, hs]

theorem scoresOf_cons_negval {r : Record} {v : String} (hv : r.value ≠ v)
    (l : List Record) : scoresOf (r :: l) v = scoresOf l v := by
  simp [scoresOf, List.filterMap_cons, hv]

theorem scoresOf_cons_nosc {r : Record} (hs : r.score = none) (l : List Record)
    (v : String) : scoresOf (r :: l) v = scoresOf l v := by
  by_cases hv : r.value = v <;> simp [scoresOf, List.filterMap_cons, hv, hs]

theorem lookup_uc_aux (v : String) (l : List Record) : ∀ acc : List (String × ℚ),
    listLookup v (l.foldl ucStep acc) = optMax (listLookup v acc) (maxOf (scoresOf l v)) := by
  induction l with
  | nil =>
    intro acc
    simp [scoresOf, maxOf, optMax_none_right]
  | cons r l ih =>
    intro acc
    rw [List.foldl_cons, ih (ucStep acc r)]
    cases hs : r.score with
    | none => simp [ucStep, hs, scoresOf_cons_nosc hs]
    | some s =>
      have hstep : ucStep acc r = upd acc r.value s := by simp [ucStep, hs]
      by_cases hv : r.value = v
      · rw [hstep, lookup_upd, if_pos hv, scoresOf_cons_pos hv hs, maxOf_cons, optMax_assoc]
      · rw [hstep, lookup_upd, if_neg hv, scoresOf_cons_negval hv]

theorem lookup_uc (l : List Record) (v : String) :
    listLookup v (uniqueClassifications l) = maxOf (scoresOf l v) := by
  rw [uniqueClassifications, lookup_uc_aux v l []]
  rfl

theorem firstDedupAux_congr [DecidableEq α] :
    ∀ (l : List α) (s1 s2 : List α), (∀ a, a ∈ s1 ↔ a ∈ s2) →
      firstDedupAux l s1 = firstDedupAux l s2 := by
  intro l
  induction l with
  | nil => intro s1 s2 _; rfl
  | cons b rest ih =>
    intro s1 s2 h
    by_cases hb : b ∈ s1
    · rw [firstDedupAux, if_pos hb, firstDedupAux, if_pos ((h b).mp hb)]
      exact ih s1 s2 h
    · rw [firstDedupAux, if_neg hb, firstDedupAux, if_neg (fun hc => hb ((h b).mpr hc))]
      refine congrArg (b :: ·) (ih (b :: s1) (b :: s2) ?_)
      intro a
      simp [h a]

theorem mem_firstDedupAux [DecidableEq α] :
    ∀ (l : List α) (seen : List α) (a : α),
      a ∈ firstDedupAux l seen ↔ a ∈ l ∧ a ∉ seen := by
  intro l
  induction l with
  | nil => intro seen a; simp [firstDedupAux]
  | cons b rest ih =>
    intro seen a
    by_cases hb : b ∈ seen
    · rw [firstDedupAux, if_pos hb, ih seen a]
      constructor
      · rintro ⟨h1, h2⟩
        exact ⟨List.mem_cons_of_mem b h1, h2⟩
      · rintro ⟨h1, h2⟩
        rcases List.mem_cons.mp h1 with h | h
        · exact absurd (by rw [h]; exact hb) h2
        · exact ⟨h, h2⟩
    · rw [firstDedupAux, if_neg hb]
      simp only [List.mem_cons, ih (b :: seen) a]
      constructor
      · rintro (h | ⟨h1, h2⟩)
        · exact ⟨Or.inl h, by rw [h]; exact hb⟩
        · exact ⟨Or.inr h1, fun hc => h2 (Or.inr hc)⟩
      · rintro ⟨h1 | h1, h2⟩
        · exact Or.inl h1
        · by_cases hab : a = b
          · exact Or.inl hab
          · exact Or.inr ⟨h1, by simp [hab, h2]⟩

theorem nodup_firstDedupAux [DecidableEq α] :
    ∀ (l : List α) (seen : List α), (firstDedupAux l seen).Nodup := by
  intro l
  induction l with
  | nil => intro seen; simp [firstDedupAux]
  | cons b rest ih =>
    intro seen
    by_cases hb : b ∈ seen
    · rw [firstDedupAux, if_pos hb]; exact ih seen
    · rw [firstDedupAux, if_neg hb]
      refine List.nodup_cons.mpr ⟨?_, ih (b :: seen)⟩
      intro hc
      exact ((mem_firstDedupAux rest (b :: seen) b).mp hc).2 (List.mem_cons_self b seen)

theorem mem_firstDedup [DecidableEq α] (l : List α) (a : α) :
    a ∈ firstDedup l ↔ a ∈ l := by
  rw [firstDedup, mem_firstDedupAux]
  simp

theorem nodup_firstDedup [DecidableEq α] (l : List α) : (firstDedup l).Nodup :=
  nodup_firstDedupAux l []

theorem scoredValues_cons (r : Record) (l : List Record) :
    scoredValues (r :: l) =
      (match r.score with
       | some _ => r.value :: scoredValues l
       | none => scoredValues l) := by
  cases hs : r.score <;> simp [scoredValues, List.filterMap_cons, hs]

theorem keys_uc_aux (l : List Record) : ∀ acc : List (String × ℚ),
    (l.foldl ucStep acc).map Prod.fst =
      acc.map Prod.fst ++ firstDedupAux (scoredValues l) (acc.map Prod.fst) := by
  induction l with
  | nil => intro acc; simp [scoredValues, firstDedupAux]
  | cons r l ih =>
    intro acc
    rw [List.foldl_cons, ih (ucStep acc r), scoredValues_cons]
    cases hs : r.score with
    | none => simp [ucStep, hs]
    | some s =>
      simp only [ucStep, hs]
      rw [keys_upd]
      by_cases hv : r.value ∈ acc.map Prod.fst
      · rw [if_pos hv, firstDedupAux, if_pos hv]
      · rw [if_neg hv, firstDedupAux, if_neg hv]
        rw [firstDedupAux_congr (scoredValues l) (acc.map Prod.fst ++ [r.value])
          (r.value :: acc.map Prod.fst) (by intro a; simp [or_comm])]
        simp

theorem keys_uc (l : List Record) :
    (uniqueClassifications l).map Prod.fst = firstDedup (scoredValues l) := by
  rw [uniqueClassifications, keys_uc_aux l [], firstDedup]
  rfl

theorem nodup_keys_uc (l : List Record) :
    ((uniqueClassifications l).map Prod.fst).Nodup := by
  rw [keys_uc]; exact nodup_firstDedup _

theorem length_uc (l : List Record) :
    (uniqueClassifications l).length = distinctScoredCount l := by
  have h := congrArg List.length (keys_uc l)
  simpa [distinctScoredCount] using h

/-! ### Properties of the stable descending sort -/

theorem insertDesc_perm (p : String × ℚ) (l : List (String × ℚ)) :
    (insertDesc p l).Perm (p :: l) := by
  induction l with
  | nil => simp [insertDesc]
  | cons q rest ih =>
    by_cases h : q.2 ≤ p.2
    · rw [insertDesc, if_pos h]
    · rw [insertDesc, if_neg h]
      exact (ih.cons q).trans (List.Perm.swap p q rest)

theorem sortDesc_perm (l : List (String × ℚ)) : (sortDesc l).Perm l := by
  induction l with
  | nil => simp [sortDesc]
  | cons p rest ih =>
    exact (insertDesc_perm p (sortDesc rest)).trans (ih.cons p)

theorem insertDesc_split (p : String × ℚ) (l : List (String × ℚ)) :
    ∃ l1 l2, l = l1 ++ l2 ∧ insertDesc p l = l1 ++ p :: l2 := by
  induction l with
  | nil => exact ⟨[], [], rfl, rfl⟩
  | cons q rest ih =>
    by_cases h : q.2 ≤ p.2
    · exact ⟨[], q :: rest, rfl, by rw [insertDesc, if_pos h]; rfl⟩
    · obtain ⟨l1, l2, h1, h2⟩ := ih
      exact ⟨q :: l1, l2, by rw [h1]; rfl, by rw [insertDesc, if_neg h, h2]; rfl⟩

theorem sublist_insertDesc {l m : List (String × ℚ)} (p : String × ℚ)
    (h : l.Sublist m) : l.Sublist (insertDesc p m) := by
  obtain ⟨m1, m2, h1, h2⟩ := insertDesc_split p m
  rw [h2]
  refine h.trans ?_
  rw [h1]
  exact (List.sublist_cons_self p m2).append_left m1

theorem insertDesc_before {b p : String × ℚ} {m : List (String × ℚ)}
    (hb : b ∈ m) (hle : b.2 ≤ p.2) : [p, b].Sublist (insertDesc p m) := by
  induction m with
  | nil => cases hb
  | cons q rest ih =>
    by_cases h : q.2 ≤ p.2
    · rw [insertDesc, if_pos h]
      exact (List.singleton_sublist.mpr hb).cons₂ p
    · rw [insertDesc, if_neg h]
      rcases List.mem_cons.mp hb with hq | hq
      · exact absurd (hq ▸ hle) h
      · exact (ih hq).cons q

theorem sortDesc_stable {a b : String × ℚ} {l : List (String × ℚ)}
    (hle : b.2 ≤ a.2) (h : [a, b].Sublist l) : [a, b].Sublist (sortDesc l) := by
  induction l with
  | nil => cases h
  | cons c rest ih =>
    rw [sortDesc]
    cases h with
    | cons _ h1 => exact sublist_insertDesc c (ih h1)
    | cons₂ _ h1 =>
      have hb : b ∈ sortDesc rest :=
        (sortDesc_perm rest).mem_iff.mpr (List.singleton_sublist.mp h1)
      exact insertDesc_before hb hle

theorem insertDesc_sorted {l : List (String × ℚ)} (p : String × ℚ)
    (h : SortedDesc l) : SortedDesc (insertDesc p l) := by
  induction l with
  | nil => simp [insertDesc, SortedDesc]
  | cons q rest ih =>
    rcases List.pairwise_cons.mp h with ⟨hq, hrest⟩
    by_cases hqp : q.2 ≤ p.2
    · rw [insertDesc, if_pos hqp]
      refine List.pairwise_cons.mpr ⟨?_, h⟩
      intro b hb
      rcases List.mem_cons.mp hb with hb | hb
      · rw [hb]; exact hqp
      · exact le_trans (hq b hb) hqp
    · rw [insertDesc, if_neg hqp]
      refine List.pairwise_cons.mpr ⟨?_, ih hrest⟩
      intro b hb
      have : b ∈ p :: rest := (insertDesc_perm p rest).mem_iff.mp hb
      rcases List.mem_cons.mp this with hb1 | hb1
      · rw [hb1]; exact le_of_not_le hqp
      · exact hq b hb1

theorem sortDesc_sorted (l : List (String × ℚ)) : SortedDesc (sortDesc l) := by
  induction l with
  | nil => simp [sortDesc, SortedDesc]
  | cons p rest ih => exact insertDesc_sorted p ih

/-! ### Assembling the ranking facts -/

theorem mem_scoresOf {l : List Record} {v : String} {s : ℚ} :
    s ∈ scoresOf l v ↔ ∃ r ∈ l, r.value = v ∧ r.score = some s := by
  simp only [scoresOf, List.mem_filterMap]
  constructor
  · rintro ⟨r, hr, h⟩
    by_cases hv : r.value = v
    · rw [if_pos hv] at h
      exact ⟨r, hr, hv, h⟩
    · rw [if_neg hv] at h
      cases h
  · rintro ⟨r, hr, hv, h⟩
    exact ⟨r, hr, by rw [if_pos hv]; exact h⟩

theorem mem_scoredValues {l : List Record} {v : String} :
    v ∈ scoredValues l ↔ ∃ r ∈ l, r.value = v ∧ r.score ≠ none := by
  simp only [scoredValues, List.mem_filterMap]
  constructor
  · rintro ⟨r, hr, h⟩
    cases hs : r.score with
    | none => rw [hs] at h; cases h
    | some s =>
      rw [hs] at h
      cases h
      exact ⟨r, hr, rfl, by rw [hs]; exact fun hc => Option.noConfusion hc⟩
  · rintro ⟨r, hr, hv, h⟩
    cases hs : r.score with
    | none => exact absurd hs h
    | some s => exact ⟨r, hr, by rw [hs, hv]⟩

theorem lookup_of_mem_nodup {xs : List (String × ℚ)} {p : String × ℚ}
    (hnd : (xs.map Prod.fst).Nodup) (h : p ∈ xs) : listLookup p.1 xs = some p.2 := by
  induction xs with
  | nil => cases h
  | cons q rest ih =>
    rcases List.mem_cons.mp h with hq | hq
    · rw [hq, listLookup, if_pos rfl]
    · have hk : q.1 ≠ p.1 := by
        intro hc
        have : p.1 ∈ rest.map Prod.fst := List.mem_map_of_mem Prod.fst hq
        rw [← hc] at this
        exact (List.nodup_cons.mp hnd).1 this
      rw [listLookup, if_neg hk]
      exact ih (List.nodup_cons.mp hnd).2 hq

theorem mem_keys {xs : List (String × ℚ)} {v : String} (h : v ∈ xs.map Prod.fst) :
    ∃ s, (v, s) ∈ xs := by
  rcases List.mem_map.mp h with ⟨p, hp, he⟩
  exact ⟨p.2, by rw [← he]; exact hp⟩

theorem mem_uc_score {l : List Record} {p : String × ℚ}
    (h : p ∈ uniqueClassifications l) :
    p.2 ∈ scoresOf l p.1 ∧ ∀ x ∈ scoresOf l p.1, x ≤ p.2 := by
  have hl := lookup_of_mem_nodup (nodup_keys_uc l) h
  rw [lookup_uc] at hl
  exact maxOf_spec _ _ hl

theorem filter_fst_nil {xs : List (String × ℚ)} {v : String}
    (h : v ∉ xs.map Prod.fst) : xs.filter (fun p => p.1 = v) = [] := by
  induction xs with
  | nil => rfl
  | cons q rest ih =>
    have hq : q.1 ≠ v := fun hc => h (by rw [← hc]; exact List.mem_map_of_mem Prod.fst (List.mem_cons_self q rest))
    have hr : v ∉ rest.map Prod.fst := fun hc => h (List.mem_cons_of_mem _ hc)
    simp [hq, ih hr]

theorem filter_fst_one {xs : List (String × ℚ)} {v : String}
    (hnd : (xs.map Prod.fst).Nodup) (h : v ∈ xs.map Prod.fst) :
    (xs.filter (fun p => p.1 = v)).length = 1 := by
  induction xs with
  | nil => cases h
  | cons q rest ih =>
    rcases List.nodup_cons.mp hnd with ⟨hq1, hq2⟩
    rcases List.mem_cons.mp h with hq | hq
    · have : v ∉ rest.map Prod.fst := by rw [hq]; exact hq1
      simp [← hq, filter_fst_nil this]
    · have hne : q.1 ≠ v := fun hc => hq1 (hc ▸ hq)
      simp [hne, ih hq2 hq]

theorem rankTopics_eq_of_le {records : List Record} {limit : ℕ}
    (h : distinctScoredCount records ≤ limit) :
    rankTopics records limit = sortDesc (uniqueClassifications records) := by
  apply List.take_of_length_le
  rw [(sortDesc_perm _).length_eq, length_uc]
  exact h

theorem keys_sortDesc_nodup (l : List Record) :
    ((sortDesc (uniqueClassifications l)).map Prod.fst).Nodup :=
  (((sortDesc_perm (uniqueClassifications l))).map Prod.fst).nodup_iff.mpr (nodup_keys_uc l)

theorem mem_keys_sortDesc {l : List Record} {v : String} :
    v ∈ (sortDesc (uniqueClassifications l)).map Prod.fst ↔ v ∈ scoredValues l := by
  rw [((sortDesc_perm (uniqueClassifications l))).map Prod.fst |>.mem_iff, keys_uc,
    mem_firstDedup]

/-! ### Claims about the ranking engine -/

/-- C6: for every input sequence of scored records and every limit ≥ 0, the
ranked output has length ≤ limit; at limit 0 it is empty; when the limit is at
least the number of distinct values with non-null score, the output length
equals that distinct-value count; and every ranked entry comes from a record
with a non-null score, so null-score records never appear. -/
theorem C6_limit_truncation (records : List Record) (limit : ℕ) :
    (rankTopics records limit).length ≤ limit ∧
    rankTopics records 0 = [] ∧
    (distinctScoredCount records ≤ limit →
      (rankTopics records limit).length = distinctScoredCount records) ∧
    (∀ p ∈ rankTopics records limit,
      ∃ r ∈ records, r.value = p.1 ∧ r.score = some p.2) := by
  refine ⟨?_, ?_, ?_, ?_⟩
  · rw [rankTopics, List.length_take]
    exact min_le_left _ _
  · rfl
  · intro h
    rw [rankTopics_eq_of_le h, (sortDesc_perm _).length_eq, length_uc]
  · intro p hp
    have hp1 : p ∈ sortDesc (uniqueClassifications records) := List.mem_of_mem_take hp
    have hp2 : p ∈ uniqueClassifications records := (sortDesc_perm _).mem_iff.mp hp1
    exact mem_scoresOf.mp (mem_uc_score hp2).1

theorem C6_limit_truncation_witness :
    (rankTopics ex2 5).length = distinctScoredCount ex2 ∧
    (∃ r ∈ ex2, r.value = "Tax" ∧ r.score = some 90) := by
  refine ⟨(C6_limit_truncation ex2 5).2.2.1 (by decide), ?_⟩
  exact (C6_limit_truncation ex2 1).2.2.2 ("Tax", 90) (by decide)

/-- C5 (counterexample): the ranked-set completeness claim is quantified over
every limit, but at limit 0 a scored value is absent from the output. -/
theorem C5_counterexample :
    ¬ (("Audit" ∈ (rankTopics ex5 0).map Prod.fst) ↔ "Audit" ∈ scoredValues ex5) := by
  decide

/-- C5 (amended): when the limit is at least the number of distinct non-null
scored values, the set of topic values in the ranked output equals the set of
distinct values among the records with a non-null score. -/
theorem C5_ranked_set_completeness (records : List Record) (limit : ℕ)
    (h : distinctScoredCount records ≤ limit) (v : String) :
    v ∈ (rankTopics records limit).map Prod.fst ↔
      ∃ r ∈ records, r.value = v ∧ r.score ≠ none := by
  rw [rankTopics_eq_of_le h, mem_keys_sortDesc, mem_scoredValues]

theorem C5_ranked_set_completeness_witness :
    ("Tax" ∈ (rankTopics ex2 7).map Prod.fst) ↔
      (∃ r ∈ ex2, r.value = "Tax" ∧ r.score ≠ none) :=
  C5_ranked_set_completeness ex2 7 (by decide) "Tax"

/-- C2 (counterexample): with limit 1, the two records sharing value "Audit"
are ranked below "Tax", so "Audit" appears zero times, not exactly once. -/
theorem C2_counterexample :
    ¬ (((rankTopics ex2 1).filter (fun p => p.1 = "Audit")).length = 1) := by
  decide

/-- C2 (amended): if two or more records share a value, at least one of them
has a non-null score, and the limit covers all distinct scored values, then
the ranked output contains that value exactly once, with score equal to the
maximum non-null score among the records sharing it. -/
theorem C2_dedup_max (records : List Record) (limit : ℕ) (v : String)
    (_hdup : 2 ≤ (records.filter (fun r => r.value = v)).length)
    (hscored : ∃ r ∈ records, r.value = v ∧ r.score ≠ none)
    (hlim : distinctScoredCount records ≤ limit) :
    ((rankTopics records limit).filter (fun p => p.1 = v)).length = 1 ∧
    ∀ p ∈ rankTopics records limit, p.1 = v →
      p.2 ∈ scoresOf records v ∧ ∀ x ∈ scoresOf records v, x ≤ p.2 := by
  rw [rankTopics_eq_of_le hlim]
  constructor
  · exact filter_fst_one (keys_sortDesc_nodup records)
      (mem_keys_sortDesc.mpr (mem_scoredValues.mpr hscored))
  · intro p hp hv
    have hp2 : p ∈ uniqueClassifications records := (sortDesc_perm _).mem_iff.mp hp
    have h := mem_uc_score hp2
    rw [hv] at h
    exact h

theorem C2_dedup_max_witness :
    ((rankTopics ex2 5).filter (fun p => p.1 = "Audit")).length = 1 :=
  (C2_dedup_max ex2 5 "Audit" (by decide) (by decide) (by decide)).1

/-- C3: after deduplication the distinct (value, score) pairs are sorted by
score descending with a stable sort: pairs with equal scores keep the dedup
dict's order, the dedup dict's key order is the first-occurrence order of the
scored values, and on the concrete extraction order
[Finance(70), Finance(85), Law(85)] with limit 10 the output is
[(Finance, 85), (Law, 85)] — first-seen order, not alphabetical, as the
[Law(85), Finance(85)] input shows. -/
theorem C3_tie_break_stability :
    (∀ (records : List Record) (a b : String × ℚ), a.2 = b.2 →
        [a, b].Sublist (uniqueClassifications records) →
        [a, b].Sublist (sortDesc (uniqueClassifications records))) ∧
    (∀ records : List Record,
        (uniqueClassifications records).map Prod.fst = firstDedup (scoredValues records)) ∧
    (∀ records : List Record, SortedDesc (sortDesc (uniqueClassifications records))) ∧
    rankTopics ex3 10 = [("Finance", (85 : ℚ)), ("Law", (85 : ℚ))] ∧
    rankTopics ex3b 10 = [("Law", (85 : ℚ)), ("Finance", (85 : ℚ))] := by
  refine ⟨?_, keys_uc, fun records => sortDesc_sorted _, by decide, by decide⟩
  intro records a b he h
  exact sortDesc_stable (le_of_eq he.symm) h

theorem C3_tie_break_stability_witness :
    [("Finance", (85 : ℚ)), ("Law", (85 : ℚ))].Sublist
      (sortDesc (uniqueClassifications ex3)) ∧
    rankTopics ex3 10 = [("Finance", (85 : ℚ)), ("Law", (85 : ℚ))] :=
  ⟨C3_tie_break_stability.1 ex3 _ _ (by decide) (by decide),
    C3_tie_break_stability.2.2.2.1⟩

/-! ### Shape facts about the extraction patterns -/

theorem captureQuoted_ne {s : List Char} {v : String} {t : List Char}
    (h : captureQuoted s = some (v, t)) : v ≠ "" := by
  simp only [captureQuoted] at h
  split at h
  · rename_i rest heq
    split at h
    · cases h
    · rename_i hrun
      injection h with h1
      have h2 := congrArg Prod.fst h1
      simp only at h2
      intro hc
      rw [← h2] at hc
      have h3 := congrArg String.data hc
      simp only at h3
      exact hrun (by rw [h3]; rfl)
  · cases h

theorem matchOptIdScore_shape {s : List Char} {p : String × String} {t : List Char}
    (h : matchOptIdScore s = some (p, t)) : p.1 ≠ "" ∧ p.2 ≠ "" := by
  unfold matchOptIdScore at h
  cases h1 : matchLit idLit s with
  | none => rw [h1] at h; simp at h
  | some s1 =>
    rw [h1] at h
    dsimp only at h
    cases h2 : captureQuoted s1 with
    | none => rw [h2] at h; simp at h
    | some p1 =>
      obtain ⟨i, s2⟩ := p1
      rw [h2] at h
      dsimp only at h
      cases h3 : matchLit scoreLit s2 with
      | none => rw [h3] at h; simp at h
      | some s3 =>
        rw [h3] at h
        dsimp only at h
        cases h4 : captureQuoted s3 with
        | none => rw [h4] at h; simp at h
        | some p2 =>
          obtain ⟨sc, s4⟩ := p2
          rw [h4] at h
          dsimp only at h
          injection h with h5
          have h6 := congrArg Prod.fst h5
          simp only at h6
          rw [← h6]
          exact ⟨captureQuoted_ne h2, captureQuoted_ne h4⟩

theorem matchMetaAt_shape {s : List Char} {f : MetaField} {t : List Char}
    (h : matchMetaAt s = some (f, t)) :
    f.1 ≠ "" ∧ f.2.1 ≠ "" ∧ ∀ i sc, f.2.2 = some (i, sc) → i ≠ "" ∧ sc ≠ "" := by
  unfold matchMetaAt at h
  cases h1 : matchLit metaLit s with
  | none => rw [h1] at h; simp at h
  | some s1 =>
    rw [h1] at h
    dsimp only at h
    cases h2 : captureQuoted s1 with
    | none => rw [h2] at h; simp at h
    | some p1 =>
      obtain ⟨name, s2⟩ := p1
      rw [h2] at h
      dsimp only at h
      cases h3 : matchLit valueLit s2 with
      | none => rw [h3] at h; simp at h
      | some s3 =>
        rw [h3] at h
        dsimp only at h
        cases h4 : captureQuoted s3 with
        | none => rw [h4] at h; simp at h
        | some p2 =>
          obtain ⟨value, s4⟩ := p2
          rw [h4] at h
          dsimp only at h
          cases h5 : matchOptIdScore s4 with
          | none =>
            rw [h5] at h
            dsimp only at h
            injection h with h6
            have h7 := congrArg Prod.fst h6
            simp only at h7
            rw [← h7]
            exact ⟨captureQuoted_ne h2, captureQuoted_ne h4, by intro i sc hc; cases hc⟩
          | some p3 =>
            obtain ⟨isc, s5⟩ := p3
            rw [h5] at h
            dsimp only at h
            injection h with h6
            have h7 := congrArg Prod.fst h6
            simp only at h7
            rw [← h7]
            refine ⟨captureQuoted_ne h2, captureQuoted_ne h4, ?_⟩
            intro i sc hc
            have h8 := matchOptIdScore_shape h5
            have h9 : isc = (i, sc) := by injection hc
            rw [h9] at h8
            exact h8

theorem scanAux_forall {α : Type} (f : List Char → Option (α × List Char))
    (P : α → Prop) (hf : ∀ s a t, f s = some (a, t) → P a) :
    ∀ (fuel : ℕ) (s : List Char), ∀ a ∈ scanAux f fuel s, P a := by
  intro fuel
  induction fuel with
  | zero => intro s a ha; cases ha
  | succ n ih =>
    intro s a ha
    cases s with
    | nil => cases ha
    | cons c cs =>
      rw [scanAux] at ha
      cases hm : f (c :: cs) with
      | none =>
        rw [hm] at ha
        exact ih cs a ha
      | some p =>
        obtain ⟨a0, after⟩ := p
        rw [hm] at ha
        rcases List.mem_cons.mp ha with h1 | h1
        · rw [h1]
          exact hf (c :: cs) a0 after hm
        · exact ih after a h1

theorem scanMeta_shape (xml : String) :
    ∀ f ∈ scanMeta xml.toList,
      f.1 ≠ "" ∧ f.2.1 ≠ "" ∧ ∀ i sc, f.2.2 = some (i, sc) → i ≠ "" ∧ sc ≠ "" :=
  scanAux_forall matchMetaAt _ (fun _ _ _ h => matchMetaAt_shape h) _ _

/-! ### Claims about the field extractor -/

/-- C10: a META tag is extracted only with a non-empty value attribute (all
extracted names, values, ids and scores are non-empty); the id/score pair is
captured only when both attributes appear together, in the order id then
score, immediately after the value attribute; and a tag carrying a score
without an id is extracted with id = null and score = null, not with its
score. -/
theorem C10_attribute_coupling :
    (∀ (xml : String), ∀ f ∈ scanMeta xml.toList,
        f.1 ≠ "" ∧ f.2.1 ≠ "" ∧ ∀ i sc, f.2.2 = some (i, sc) → i ≠ "" ∧ sc ≠ "") ∧
    scanMeta emptyValXml.toList = [] ∧
    scanMeta scoreOnlyXml.toList = [("Generic_UPWARD", "Tax", none)] ∧
    scanMeta swappedXml.toList = [("Generic_UPWARD", "Tax", none)] ∧
    scanMeta sepAttrXml.toList = [("N", "V", none)] ∧
    scanMeta idScoreXml.toList = [("Generic_UPWARD", "Tax", some ("i9", "9.5"))] ∧
    parse_classification_results (J := Unit) (RawResult.textual scoreOnlyXml) =
      Except.ok (ParseOutput.parsed
        ⟨none, [("Generic_UPWARD", [⟨"Tax", none, none⟩])], [], scoreOnlyXml⟩) :=
  ⟨scanMeta_shape, by decide, by decide, by decide, by decide, by decide, by decide⟩

theorem C10_attribute_coupling_witness :
    ("Generic_UPWARD", "Tax", some ("i9", "9.5")).2.1 ≠ "" :=
  (C10_attribute_coupling.1 idScoreXml ("Generic_UPWARD", "Tax", some ("i9", "9.5"))
    (by decide)).2.1

set_option maxRecDepth 100000 in
/-- C1: parsing the payload with the three Generic_UPWARD tags
(Audit, 62.5), (Tax, 80.0), (Audit, 71.3) and ranking that category with
limit 2 returns exactly [(Tax, 80.0), (Audit, 71.3)]. -/
theorem C1_round_trip :
    pipelineTopics c1xml "Generic_UPWARD" 2 =
      some [("Tax", (80 : ℚ)), ("Audit", (71.3 : ℚ))] := by
  have h : (71.3 : ℚ) = mkRat 713 10 := by norm_num [mkRat, Rat.normalize]
  rw [h]
  decide

/-- C9 (counterexample): a structured payload that itself carries a
`classifications` key has a non-empty category view — the code returns the
dict verbatim and the helper reads that same key, so the claimed empty
categories are refuted. -/
theorem C9_counterexample :
    ¬ (getCategory (ParseOutput.passthrough (J := Unit) ex9) "Generic_UPWARD" = [] ∧
       getSystemInfo (ParseOutput.passthrough (J := Unit) ex9) = []) := by
  decide

/-- C9 (amended): a structured (non-textual) payload is passed through
verbatim by the extractor with no pattern extraction; the categories and
system-info views read the payload's own `classifications` / `system_info`
entries through the dict-get defaults, so they are empty whenever the payload
carries no such keys. -/
theorem C9_structured_passthrough (J : Type) (d : StructuredPayload J) (cat : String) :
    parse_classification_results (RawResult.structured d) =
      Except.ok (ParseOutput.passthrough d) ∧
    (d.classifications = none → getCategory (ParseOutput.passthrough d) cat = []) ∧
    (d.system_info = none → getSystemInfo (ParseOutput.passthrough d) = []) ∧
    getCategory (ParseOutput.passthrough d) cat =
      (listLookup cat (d.classifications.getD [])).getD [] ∧
    getSystemInfo (ParseOutput.passthrough d) = d.system_info.getD [] := by
  refine ⟨rfl, ?_, ?_, rfl, rfl⟩
  · intro h
    simp [getCategory, h, listLookup]
  · intro h
    simp [getSystemInfo, h]

theorem C9_structured_passthrough_witness :
    parse_classification_results (RawResult.structured ex9b) =
      Except.ok (ParseOutput.passthrough ex9b) ∧
    getCategory (ParseOutput.passthrough (J := Unit) ex9b) "Generic_UPWARD" = [] ∧
    getSystemInfo (ParseOutput.passthrough (J := Unit) ex9b) = [] :=
  ⟨(C9_structured_passthrough Unit ex9b "Generic_UPWARD").1,
    (C9_structured_passthrough Unit ex9b "Generic_UPWARD").2.1 rfl,
    (C9_structured_passthrough Unit ex9b "Generic_UPWARD").2.2.1 rfl⟩

/-! ### Soundness of the float-rejection certificate

A string accepted by `float()` contains only characters of the accepted
alphabet, so a string with an ASCII character outside it is rejected — in
particular by the finite-decimal model. -/

theorem mem_run_split {c : Char} {l : List Char} (h : c ∈ l) :
    isRunChar c = true ∨ c ∈ restOf l := by
  have hsplit := List.takeWhile_append_dropWhile isRunChar l
  rw [← hsplit] at h
  rcases List.mem_append.mp h with h1 | h1
  · exact Or.inl (List.mem_takeWhile_imp h1)
  · exact Or.inr h1

theorem stripWs_mem {c : Char} {cs : List Char} (h : c ∈ cs) :
    isPyWs c = true ∨ c ∈ stripWs cs := by
  have h1 : isPyWs c = true ∨ c ∈ cs.dropWhile isPyWs := by
    have hs := List.takeWhile_append_dropWhile isPyWs cs
    rw [← hs] at h
    rcases List.mem_append.mp h with h2 | h2
    · exact Or.inl (List.mem_takeWhile_imp h2)
    · exact Or.inr h2
  rcases h1 with h1 | h1
  · exact Or.inl h1
  · have h2 : c ∈ (cs.dropWhile isPyWs).reverse := List.mem_reverse.mpr h1
    have h3 : isPyWs c = true ∨ c ∈ (cs.dropWhile isPyWs).reverse.dropWhile isPyWs := by
      have hs := List.takeWhile_append_dropWhile isPyWs (cs.dropWhile isPyWs).reverse
      rw [← hs] at h2
      rcases List.mem_append.mp h2 with h4 | h4
      · exact Or.inl (List.mem_takeWhile_imp h4)
      · exact Or.inr h4
    rcases h3 with h3 | h3
    · exact Or.inl h3
    · exact Or.inr (List.mem_reverse.mpr h3)

theorem parseSign_mem {c : Char} {cs : List Char} (h : c ∈ cs) :
    c = '+' ∨ c = '-' ∨ c ∈ (parseSign cs).2 := by
  cases cs with
  | nil => cases h
  | cons a r =>
    by_cases ha : a = '+'
    · rcases List.mem_cons.mp h with h1 | h1
      · exact Or.inl (h1.trans ha)
      · right; right
        simpa [parseSign, ha] using h1
    · by_cases hb : a = '-'
      · rcases List.mem_cons.mp h with h1 | h1
        · exact Or.inr (Or.inl (h1.trans hb))
        · right; right
          simpa [parseSign, ha, hb] using h1
      · right; right
        simpa [parseSign, ha, hb] using h

theorem runChar_core {c : Char} (h : isRunChar c = true) : pyCoreChar c = true := by
  unfold isRunChar at h
  rw [Bool.or_eq_true] at h
  unfold pyCoreChar
  rcases h with h1 | h1 <;> simp [h1]

theorem pyExp_mem {neg : Bool} {mant : ℕ} {base : ℤ} {rest : List Char} {q : ℚ}
    (h : pyExp neg mant base rest = some q) : ∀ c ∈ rest, pyCoreChar c = true := by
  intro c hc
  cases rest with
  | nil => cases hc
  | cons e r =>
    simp only [pyExp] at h
    split at h
    · split at h
      · rename_i he hval
        rcases List.mem_cons.mp hc with h1 | h1
        · subst h1
          rw [Bool.or_eq_true] at he
          rcases he with h2 | h2 <;> rw [decide_eq_true_eq] at h2 <;> rw [h2] <;> decide
        · rcases parseSign_mem h1 with h2 | h2 | h2
          · rw [h2]; decide
          · rw [h2]; decide
          · rcases mem_run_split h2 with h3 | h3
            · exact runChar_core h3
            · rw [Bool.and_eq_true] at hval
              have hemp := hval.2
              rw [List.isEmpty_iff] at hemp
              rw [hemp] at h3
              cases h3
      · cases h
    · cases h

theorem pyMantissa_mem {body : List Char} {m : ℕ} {b : ℤ} {rest : List Char}
    (h : pyMantissa body = some (m, b, rest)) :
    ∀ c ∈ body, (isRunChar c = true ∨ c = '.') ∨ c ∈ rest := by
  intro c hc
  unfold pyMantissa at h
  split at h
  · cases h
  · rcases mem_run_split hc with hr | hrest
    · exact Or.inl (Or.inl hr)
    · split at h
      · rename_i r hr9
        split at h
        · cases h
        · split at h
          · cases h
          · injection h with h1
            have h2 := congrArg (fun t : ℕ × ℤ × List Char => t.2.2) h1
            simp only at h2
            rw [hr9] at hrest
            rcases List.mem_cons.mp hrest with h3 | h3
            · exact Or.inl (Or.inr h3)
            · rcases mem_run_split h3 with h4 | h4
              · exact Or.inl (Or.inl h4)
              · refine Or.inr ?_
                rw [← h2]
                exact h4
      · split at h
        · cases h
        · injection h with h1
          have h2 := congrArg (fun t : ℕ × ℤ × List Char => t.2.2) h1
          simp only at h2
          refine Or.inr ?_
          rw [← h2]
          exact hrest

theorem pyFloat_some_chars {cs : List Char} {q : ℚ}
    (h : pyFloatChars cs = some q) : ∀ c ∈ cs, pyCoreChar c = true := by
  intro c hc
  unfold pyFloatChars at h
  cases hm : pyMantissa (parseSign (stripWs cs)).2 with
  | none => rw [hm] at h; cases h
  | some t =>
    obtain ⟨mant, base, rest⟩ := t
    rw [hm] at h
    dsimp only at h
    rcases stripWs_mem hc with h1 | h1
    · simp [pyCoreChar, h1]
    · rcases parseSign_mem h1 with h2 | h2 | h2
      · rw [h2]; decide
      · rw [h2]; decide
      · rcases pyMantissa_mem hm c h2 with (h3 | h3) | h3
        · exact runChar_core h3
        · rw [h3]; decide
        · exact pyExp_mem h c h3

theorem hasAsciiJunk_pyFloat {s : String} (h : hasAsciiJunk s = true) :
    pyFloat s = none := by
  cases hp : pyFloat s with
  | none => rfl
  | some q =>
    exfalso
    unfold hasAsciiJunk at h
    rcases List.any_eq_true.mp h with ⟨c, hc, hjunk⟩
    rw [Bool.and_eq_true] at hjunk
    have hlegal := hjunk.2
    unfold pyFloat at hp
    have hcore := pyFloat_some_chars hp c hc
    have hleg : pyFloatLegalAscii c = true := by
      simp [pyFloatLegalAscii, hcore]
    rw [hleg] at hlegal
    cases hlegal

theorem buildCls_error :
    ∀ fields : List MetaField,
      (∃ f ∈ fields, ∃ i sc, f.2.2 = some (i, sc) ∧ pyFloat sc = none) →
      ∀ acc, ∃ msg, buildCls fields acc = Except.error msg := by
  intro fields
  induction fields with
  | nil =>
    rintro ⟨f, hf, _⟩
    cases hf
  | cons g rest ih =>
    rintro ⟨f, hf, i, sc, hopt, hpf⟩ acc
    obtain ⟨n, v, opt⟩ := g
    rcases List.mem_cons.mp hf with hfg | hfg
    · subst hfg
      obtain rfl : opt = some (i, sc) := hopt
      exact ⟨"could not convert string to float: " ++ sc, by simp [buildCls, hpf]⟩
    · cases opt with
      | none =>
        obtain ⟨msg, hm⟩ := ih ⟨f, hfg, i, sc, hopt, hpf⟩ (dictAppend acc n ⟨v, none, none⟩)
        exact ⟨msg, by simp [buildCls, hm]⟩
      | some p =>
        obtain ⟨i0, sc0⟩ := p
        cases hp0 : pyFloat sc0 with
        | none => exact ⟨"could not convert string to float: " ++ sc0, by simp [buildCls, hp0]⟩
        | some q =>
          obtain ⟨msg, hm⟩ :=
            ih ⟨f, hfg, i, sc, hopt, hpf⟩ (dictAppend acc n ⟨v, some i0, some q⟩)
          exact ⟨msg, by simp [buildCls, hp0, hm]⟩

/-- C4 (counterexample): on a payload whose META tag carries the score
attribute "notanumber", extraction raises (returns an error) instead of
treating the score as null. -/
theorem C4_counterexample :
    parse_classification_results (J := Unit) (RawResult.textual c4xml) =
      Except.error "could not convert string to float: notanumber" := by
  decide

/-- C4 (amended): a scored-category record whose score attribute is captured
but not parseable as a number — witnessed by an ASCII character that cannot
occur in any string `float()` accepts — makes extraction fail with an error:
the `float()` call raises, so the outcome is a parse failure (caught per item
by the batch loop), not a record with a null score. -/
theorem C4_malformed_score_raises (xml : String)
    (h : ∃ f ∈ scanMeta xml.toList, ∃ i sc, f.2.2 = some (i, sc) ∧ hasAsciiJunk sc = true) :
    ∃ msg, parse_classification_results (J := Unit) (RawResult.textual xml) =
      Except.error msg := by
  obtain ⟨f, hf, i, sc, hopt, hjunk⟩ := h
  obtain ⟨msg, hmsg⟩ := buildCls_error (scanMeta xml.toList)
    ⟨f, hf, i, sc, hopt, hasAsciiJunk_pyFloat hjunk⟩ []
  simp only [String.toList] at hmsg
  exact ⟨msg, by simp [parse_classification_results, String.toList, hmsg]⟩

theorem C4_malformed_score_raises_witness :
    ∃ msg, parse_classification_results (J := Unit) (RawResult.textual c4xml) =
      Except.error msg :=
  C4_malformed_score_raises c4xml
    ⟨("Generic_UPWARD", "Audit", some ("i1", "notanumber")), by decide,
      "i1", "notanumber", rfl, by decide⟩

/-- C7: the batch produces exactly one outcome per submitted item in
submission order, each outcome depends only on its own item, and an item
whose fetch failed yields an outcome with the non-null error string and an
empty topics list — the failure is converted, never propagated. -/
theorem C7_error_isolation (J : Type) (maxTopics : ℕ) (items : List (WorkItem J)) :
    (processItems maxTopics items).length = items.length ∧
    (∀ i : ℕ, (processItems maxTopics items)[i]? = (items[i]?).map (processItem maxTopics)) ∧
    (∀ (it : WorkItem J) (msg : String), it.fetch = FetchOutcome.errorDict msg →
        processItem maxTopics it = ⟨it.file, it.filename, [], some msg⟩) := by
  refine ⟨by simp [processItems], fun i => by simp [processItems], ?_⟩
  intro it msg hmsg
  simp [processItem, hmsg]

theorem C7_error_isolation_witness :
    processItem (J := Unit) 10 ⟨"d/f2", "f2", FetchOutcome.errorDict "boom"⟩ =
      ⟨"d/f2", "f2", [], some "boom"⟩ :=
  (C7_error_isolation Unit 10 batch3).2.2
    ⟨"d/f2", "f2", FetchOutcome.errorDict "boom"⟩ "boom" rfl

/-! ### Facts about the CSV width pass -/

theorem csvStep_ge (m : ℕ) (r : ItemOutcome) : m ≤ csvStep m r := by
  unfold csvStep
  by_cases he : pyTruthy r.error
  · simp [he]
  · by_cases hm : m < r.classifications.length
    · simp [he, hm, le_of_lt hm]
    · simp [he, hm]

theorem le_foldl_csvStep (l : List ItemOutcome) : ∀ m : ℕ, m ≤ l.foldl csvStep m := by
  induction l with
  | nil => intro m; exact le_refl m
  | cons r l ih =>
    intro m
    exact le_trans (csvStep_ge m r) (ih (csvStep m r))

theorem foldl_csvStep_bound {l : List ItemOutcome} {r : ItemOutcome}
    (hr : r ∈ l) (he : pyTruthy r.error = false) :
    ∀ m, r.classifications.length ≤ l.foldl csvStep m := by
  induction l with
  | nil => cases hr
  | cons q l ih =>
    intro m
    rw [List.foldl_cons]
    rcases List.mem_cons.mp hr with hq | hq
    · subst hq
      refine le_trans ?_ (le_foldl_csvStep l (csvStep m r))
      unfold csvStep
      rw [he]
      by_cases hm : m < r.classifications.length
      · simp [hm]
      · simp [hm, le_of_not_lt hm]
    · exact ih hq (csvStep m q)

theorem foldl_csvStep_attained (l : List ItemOutcome) :
    ∀ m : ℕ, l.foldl csvStep m = m ∨
      ∃ r ∈ l, pyTruthy r.error = false ∧ l.foldl csvStep m = r.classifications.length := by
  induction l with
  | nil => intro m; exact Or.inl rfl
  | cons q l ih =>
    intro m
    rw [List.foldl_cons]
    rcases ih (csvStep m q) with h | ⟨r, hr, he, hv⟩
    · rw [h]
      unfold csvStep
      by_cases he : pyTruthy q.error
      · simp [he]
      · by_cases hm : m < q.classifications.length
        · refine Or.inr ⟨q, List.mem_cons_self q l, ?_, ?_⟩
          · exact Bool.eq_false_iff.mpr he
          · simp [he, hm]
        · simp [he, hm]
    · exact Or.inr ⟨r, List.mem_cons_of_mem q hr, he, hv⟩

/-- C8: the CSV emitter first computes the maximum topic count over the
outcomes without an error, writes a header with `2 + maxTopics` columns, and
one data row per outcome, each with `2 + maxTopics` cells: successful rows
padded with empty cells, errored rows carrying the error text with all topic
cells empty. -/
theorem C8_wide_tabular_shape (results : List ItemOutcome) :
    (csvHeader results).length = 2 + csvMaxTopics results ∧
    (csvDataRows results).length = results.length ∧
    (∀ row ∈ csvDataRows results, row.length = 2 + csvMaxTopics results) ∧
    (∀ r ∈ results, pyTruthy r.error = false →
        r.classifications.length ≤ csvMaxTopics results) ∧
    (csvMaxTopics results = 0 ∨
      ∃ r ∈ results, pyTruthy r.error = false ∧
        csvMaxTopics results = r.classifications.length) ∧
    (∀ r ∈ results, pyTruthy r.error = true →
        csvRow (csvMaxTopics results) r =
          r.filename :: r.error.getD "" :: List.replicate (csvMaxTopics results) "") ∧
    (∀ r ∈ results, pyTruthy r.error = false →
        csvRow (csvMaxTopics results) r =
          r.filename :: r.error.getD "" ::
            (r.classifications.map Prod.fst ++
              List.replicate (csvMaxTopics results - r.classifications.length) "")) := by
  refine ⟨?_, ?_, ?_, ?_, ?_, ?_, ?_⟩
  · simp [csvHeader]
    omega
  · simp [csvDataRows]
  · intro row hrow
    rcases List.mem_map.mp hrow with ⟨r, hr, he⟩
    rw [← he]
    unfold csvRow
    by_cases herr : pyTruthy r.error
    · simp [herr]
      omega
    · have hb : r.classifications.length ≤ csvMaxTopics results :=
        foldl_csvStep_bound hr (Bool.eq_false_iff.mpr herr) 0
      simp [herr]
      omega
  · intro r hr he
    exact foldl_csvStep_bound hr he 0
  · exact foldl_csvStep_attained results 0
  · intro r hr he
    simp [csvRow, he]
  · intro r hr he
    simp [csvRow, he]

theorem C8_wide_tabular_shape_witness :
    (csvHeader csvEx).length = 2 + csvMaxTopics csvEx ∧
    csvRow (csvMaxTopics csvEx) ⟨"d/f2", "f2", [], some "boom"⟩ =
      ["f2", "boom", "", ""] := by
  refine ⟨(C8_wide_tabular_shape csvEx).1, ?_⟩
  have h := (C8_wide_tabular_shape csvEx).2.2.2.2.2.1
    ⟨"d/f2", "f2", [], some "boom"⟩ (by decide) (by decide)
  rw [h]
  decide

end Semaphore
